import Mathlib

/-!
Shallow embedding of `src/train_fnri.py`, the training script of a
factorized Neural Relational Inference (fNRI) model.

Scalars produced by the external tensor library are modelled as rationals.
External modules the script treats as opaque callables (encoder, decoder,
optimizer step, Gumbel sampler, data loader) are abstract parameters of the
embedding, mirroring the script's own interface to them.  Line numbers in
the doc comments refer to `src/train_fnri.py`.
-/

namespace FNRI

/-- Edge tensors of shape `[pairs, edge_types]` (one row per ordered atom
pair), modelled as total functions that are zero outside the used range. -/
def Tensor : Type := ℕ → ℕ → ℚ

/-- The zero tensor, as in `torch.zeros(...)` (line 135). -/
def tzero : Tensor := fun _ _ => 0

/-- `edges.sum(0)` (line 195): elementwise sum over the batch axis of the
per-sample edge tensors of one batch. -/
def sumBatch (samples : List Tensor) : Tensor :=
  fun i j => (samples.map (fun s => s i j)).sum

/-- Column offset of factor `f` on the concatenated edge-type axis.  Edge
tensors are built by `torch.cat` of per-factor blocks obtained from
`torch.split(logits, args.edge_types_list, dim=-1)` (lines 149-153), so
factor `f` occupies the columns starting at the sum of the preceding
factor sizes. -/
def specOffset (ets : List ℕ) (f : ℕ) : ℕ := (ets.take f).sum

/-- Sum of the entries of factor `f`'s column slice in row `i` of `t`. -/
def sliceSum (ets : List ℕ) (f : ℕ) (t : Tensor) (i : ℕ) : ℚ :=
  ∑ k ∈ Finset.range (ets.getD f 0), t i (specOffset ets f + k)

/-- `np.isclose(beta, 0, rtol=1e-6)` (line 181): `|beta - 0| <= atol +
rtol*|0|` with numpy's default `atol = 1e-8`. -/
def isCloseToZero (beta : ℚ) : Bool := decide (|beta| ≤ 1 / 100000000)

/-- Lines 181-182: `if not np.isclose(args.beta, 0, rtol=1e-6): loss_kl =
args.beta*loss_kl`.  When beta is close to 0 the multiplication is
skipped and `loss_kl` keeps its unscaled value. -/
def scaleKL (beta lossKl : ℚ) : ℚ :=
  if isCloseToZero beta then lossKl else beta * lossKl

/-- Line 187: `loss = loss_mse if args.mse_loss else loss_nll + loss_kl`,
with `loss_kl` as possibly rescaled by lines 181-182. -/
def composeLoss (mseLoss : Bool) (beta lossMse lossNll lossKl : ℚ) : ℚ :=
  if mseLoss then lossMse else lossNll + scaleKL beta lossKl

/-- Outcome of a floating-point division: a finite value, NaN, or a signed
infinity. -/
inductive FQ where
  | val : ℚ → FQ
  | nan : FQ
  | inf : FQ
  | ninf : FQ
deriving DecidableEq, Repr

/-- IEEE-style semantics of the tensor division `aggr_posterior/n_samples`
(line 204): dividing a zero numerator by a zero count yields NaN; no
exception is ever raised. -/
def fdivQ (a b : ℚ) : FQ :=
  if b = 0 then (if a = 0 then FQ.nan else if 0 < a then FQ.inf else FQ.ninf)
  else FQ.val (a / b)

/-- The `mode` string dispatched on inside `run` (lines 129-206). -/
inductive Mode where
  | train
  | val
  | test
  | post
deriving DecidableEq, Repr

/-- Scalars one batch yields from the external encoder/decoder stack before
any rescaling: `loss_mse` (line 184), `loss_nll` (line 177), the summed
factor KL `loss_kl` (lines 157-165) and the inter-block KL list
`KLb_blocks` (line 171).  All of them depend on the current parameters. -/
structure BatchRaw where
  lossMse : ℚ
  lossNll : ℚ
  lossKl : ℚ
  KLbBlocks : List ℚ

/-- One `(data, clinical)` batch as `run` consumes it, over an abstract type
`θ` for the joint encoder+decoder parameters: `raw` is the objective
pipeline (lines 147-184), `edges` the per-sample sampled edge tensors
(lines 150-153; the batch axis is the list, so `data.size(0)` is its
length), `optStep` the combined effect of `loss.backward()`, gradient
clipping and `optimizer.step()` (lines 190-193). -/
structure Batch (θ : Type) where
  raw : θ → BatchRaw
  edges : θ → List Tensor
  optStep : θ → θ

/-- The metrics history dict created at the top of `run` (lines 131-132). -/
@[ext]
structure History where
  mse : List ℚ
  nll : List ℚ
  kl : List ℚ
  loss : List ℚ
  KLb_train : List ℚ
  KLb_blocks : List (List ℚ)
deriving DecidableEq, Repr

/-- `history = {key: [] for key in [...]}` (lines 131-132). -/
def emptyHistory : History := ⟨[], [], [], [], [], []⟩

/-- Fieldwise concatenation of two histories. -/
def appendH (h g : History) : History :=
  ⟨h.mse ++ g.mse, h.nll ++ g.nll, h.kl ++ g.kl, h.loss ++ g.loss,
    h.KLb_train ++ g.KLb_train, h.KLb_blocks ++ g.KLb_blocks⟩

/-- The state the batch loop of `run` threads along: the model parameters,
the metrics history, and (for `post` mode) the posterior accumulator with
its sample count (lines 134-137). -/
structure RunState (θ : Type) where
  params : θ
  history : History
  aggr : Tensor
  nSamples : ℕ

variable {θ : Type}

/-- Loop body of `run` for one batch (lines 139-201): compute the losses,
rescale the KL (lines 181-182), form the optimized loss (line 187), step
the optimizer only in train mode (lines 189-193), accumulate the posterior
only in post mode (lines 194-196), and append one scalar per metric key
(lines 172-173 and 198-201). -/
def runBatch (mode : Mode) (mseLoss : Bool) (beta : ℚ) (st : RunState θ)
    (b : Batch θ) : RunState θ :=
  let r := b.raw st.params
  let klScaled := scaleKL beta r.lossKl
  let lossVal := if mseLoss then r.lossMse else r.lossNll + klScaled
  { params := if mode = Mode.train then b.optStep st.params else st.params
    history := { mse := st.history.mse ++ [r.lossMse]
                 nll := st.history.nll ++ [r.lossNll]
                 kl := st.history.kl ++ [klScaled]
                 loss := st.history.loss ++ [lossVal]
                 KLb_train := st.history.KLb_train ++ [r.KLbBlocks.sum]
                 KLb_blocks := st.history.KLb_blocks ++ [r.KLbBlocks] }
    aggr := if mode = Mode.post then
              fun i j => st.aggr i j + sumBatch (b.edges st.params) i j
            else st.aggr
    nSamples := if mode = Mode.post then st.nSamples + (b.edges st.params).length
                else st.nSamples }

/-- One full pass of `run` over a data loader (lines 129-206): the history
starts fresh (line 131) and the posterior accumulator starts at zero with
a zero sample count (lines 134-137). -/
def runPass (mode : Mode) (mseLoss : Bool) (beta : ℚ) (init : θ)
    (batches : List (Batch θ)) : RunState θ :=
  batches.foldl (runBatch mode mseLoss beta) ⟨init, emptyHistory, tzero, 0⟩

/-- Total `data.size(0)` over the loader, at fixed parameters. -/
def totalSamples (init : θ) (batches : List (Batch θ)) : ℕ :=
  (batches.map (fun b => (b.edges init).length)).sum

/-- The `aggr_posterior/n_samples` tensor a post pass returns (line 204),
with floating division semantics. -/
def postResult (mseLoss : Bool) (beta : ℚ) (init : θ)
    (batches : List (Batch θ)) : ℕ → ℕ → FQ :=
  fun i j =>
    fdivQ ((runPass Mode.post mseLoss beta init batches).aggr i j)
      ((runPass Mode.post mseLoss beta init batches).nSamples : ℚ)

/-- Rational value of the post-pass result on the indices where the
division is exact. -/
def postResultQ (mseLoss : Bool) (beta : ℚ) (init : θ)
    (batches : List (Batch θ)) : Tensor :=
  fun i j =>
    (runPass Mode.post mseLoss beta init batches).aggr i j /
      ((runPass Mode.post mseLoss beta init batches).nSamples : ℚ)

/-- The per-batch scalars of one pass, in loader order, with the parameters
threaded exactly as the loop threads them (optimizer step in train mode
only). -/
def emitted (mode : Mode) (mseLoss : Bool) (beta : ℚ) :
    θ → List (Batch θ) → History
  | _, [] => emptyHistory
  | p, b :: bs =>
    let r := b.raw p
    let klScaled := scaleKL beta r.lossKl
    let h := emitted mode mseLoss beta
      (if mode = Mode.train then b.optStep p else p) bs
    { mse := r.lossMse :: h.mse
      nll := r.lossNll :: h.nll
      kl := klScaled :: h.kl
      loss := (if mseLoss then r.lossMse else r.lossNll + klScaled) :: h.loss
      KLb_train := r.KLbBlocks.sum :: h.KLb_train
      KLb_blocks := r.KLbBlocks :: h.KLb_blocks }

/-- The epoch loop of `main` (lines 408-429), abstracted over the stream of
`logger.store(val_loss)` improvement signals, one per epoch: `stop_early`
is reset to 0 on improvement, incremented otherwise (line 423), and the
loop breaks when it exceeds the patience (line 425).  Returns the 1-based
epoch at which `break` fires, or `none` when the loop runs to the end. -/
def earlyStopAux (patience : ℕ) : ℕ → ℕ → List Bool → Option ℕ
  | _, _, [] => none
  | stopEarly, epoch, best :: rest =>
    let s := if best then 0 else stopEarly + 1
    if patience < s then some epoch else earlyStopAux patience s (epoch + 1) rest

/-- Entry point of the epoch loop: `stop_early = 0` (line 408) and epochs
numbered from 1 (line 409). -/
def earlyStopEpoch (patience : ℕ) (signals : List Bool) : Option ℕ :=
  earlyStopAux patience 0 1 signals

/-- The value of the `stop_early` counter after folding a list of
improvement signals, starting from `c`. -/
def stallFrom (c : ℕ) (l : List Bool) : ℕ :=
  l.foldl (fun acc best => if best then 0 else acc + 1) c

/-- The `stop_early` counter after a prefix of the epoch stream. -/
def stallAfter (l : List Bool) : ℕ := stallFrom 0 l

/-- One `--edge-types-list` token after Python `int()`: `some n` when the
token converts, `none` when `int()` raises ValueError.  `list(map(int,
...))` (line 326) stops at the first failing token. -/
def mapInt : List (Option ℤ) → Except String (List ℤ)
  | [] => .ok []
  | none :: _ => .error "invalid literal for int() with base 10"
  | some k :: rest => (mapInt rest).map (fun l => k :: l)

/-- Lines 327-331: `args.edge_types_list.sort(reverse=True)`, then the
`all(isinstance(k, int) and k >= 1 ...)` guard that sets
`args.edge_types = sum(...)` or raises ValueError. -/
def validatePartition (ints : List ℤ) : Except String (List ℤ × ℤ) :=
  let l := List.insertionSort (· ≥ ·) ints
  if l.all (fun k => decide (1 ≤ k)) then .ok (l, l.sum)
  else .error "Could not compute the edge-types-list"

/-- The partition-derived configuration `main` writes back onto `args`
(lines 326-331). -/
structure Startup where
  edgeTypesList : List ℤ
  edgeTypes : ℤ
deriving DecidableEq, Repr

/-- Startup processing of the edge-type partition (lines 326-331).  The
encoder and decoder constructions (lines 334 and 344) and every pass come
strictly after this block, so an error here precludes them. -/
def startup (raw : List (Option ℤ)) : Except String Startup :=
  match mapInt raw with
  | .error e => .error e
  | .ok ints =>
    match validatePartition ints with
    | .error e => .error e
    | .ok (l, s) => .ok ⟨l, s⟩

/-- Lines 381-383: `prior_et = np.zeros(K0); prior_et[0] = 0.9;
prior_et[1:] = 0.1/(K0-1)` with `K0 = args.edge_types_list[0]`.  Python
evaluates the division first and raises ZeroDivisionError when `K0-1` is
0, before the slice assignment happens. -/
def buildPriorEt (k0 : ℤ) : Except String (List ℚ) :=
  if k0 - 1 = 0 then .error "ZeroDivisionError: float division by zero"
  else .ok ((9 : ℚ) / 10 ::
    List.replicate (k0 - 1).toNat ((1 : ℚ) / 10 / ((k0 : ℚ) - 1)))

/-- The sparsity-prior block of `main` (lines 379-397): the vector is built
from `edge_types_list[0]` alone, replicated across all factors, and only
afterwards checked against the per-factor sizes (line 387).  The `np.log`
applied later is external numerics on which the control flow does not
depend, so the probabilities themselves are returned. -/
def buildPrior (ets : List ℤ) : Except String (List (List ℚ)) :=
  match ets with
  | [] => .error "IndexError: list index out of range"
  | k0 :: _ =>
    match buildPriorEt k0 with
    | .error e => .error e
    | .ok priorEt =>
      let prior := List.replicate ets.length priorEt
      if (List.range ets.length).all
          (fun i => decide (((prior.getD i []).length : ℤ) = ets.getD i 0))
      then .ok prior
      else .error "Prior is incompatable with the edge types list"

/-- Column offset `generations` actually uses for factor `et` (lines
255-258): `et * n` with `n = args.edge_types_list[et]`. -/
def codeOffset (ets : List ℕ) (et : ℕ) : ℕ := et * ets.getD et 0

/-- The probability slice `aggr_posterior[i, et*n:(et+1)*n]` handed to
`np.random.choice` (lines 256-257). -/
def codeSlice (ets : List ℕ) (aggr : Tensor) (i et : ℕ) : List ℚ :=
  (List.range (ets.getD et 0)).map (fun k => aggr i (codeOffset ets et + k))

/-- The slice the specification describes: factor `et`'s own block of the
posterior, at the prefix-sum offset the rest of the program uses for the
edge-type axis. -/
def specSlice (ets : List ℕ) (aggr : Tensor) (i et : ℕ) : List ℚ :=
  (List.range (ets.getD et 0)).map (fun k => aggr i (specOffset ets et + k))

/-- Column receiving the 1 for a drawn index `idx` (line 258):
`(et*n)+idx`. -/
def codeOneHotPos (ets : List ℕ) (et idx : ℕ) : ℕ := codeOffset ets et + idx

/-- Tensor whose entry is its own column index, used to exhibit which
columns a slice reads. -/
def colIdx : Tensor := fun _ j => (j : ℚ)

/-- Concrete one-sample batch putting all mass on column 0 of a two-column
factor (for evaluating the post pass on a tiny loader). -/
def sampleA : Tensor := fun _ j => if j = 0 then 1 else 0

/-- Concrete one-sample batch putting all mass on column 1. -/
def sampleB : Tensor := fun _ j => if j = 1 then 1 else 0

/-- Tiny concrete batch over trivial parameters, carrying `sampleA`. -/
def batchA : Batch Unit := ⟨fun _ => ⟨0, 0, 0, []⟩, fun _ => [sampleA], fun p => p⟩

/-- Tiny concrete batch over trivial parameters, carrying `sampleB`. -/
def batchB : Batch Unit := ⟨fun _ => ⟨0, 0, 0, []⟩, fun _ => [sampleB], fun p => p⟩

/-- Concrete batch over integer parameters whose optimizer step adds 5. -/
def batchStep : Batch ℤ := ⟨fun _ => ⟨1, 2, 3, [4]⟩, fun _ => [], fun p => p + 5⟩

/-- C1 counterexample: with `args.beta = 0` exactly, `mse_loss` off, NLL 2
and total KL 5, the optimized loss is 7, not the reconstruction term 2
alone — the KL contributes at full weight because lines 181-182 skip the
multiplication rather than zero the term. -/
theorem claim_C1_counterexample :
    composeLoss false 0 9 2 5 = 7 ∧ composeLoss false 0 9 2 5 ≠ 2 := by
  constructor <;> norm_num [composeLoss, scaleKL, isCloseToZero]

/-- C1 (amended): in the ELBO branch, when beta is numerically
indistinguishable from 0 (including beta exactly 0) the beta-scaling is
skipped and the optimized loss equals NLL plus the unscaled total KL;
otherwise it equals NLL plus beta times the total KL. -/
theorem claim_C1 (beta lossMse lossNll lossKl : ℚ) :
    (isCloseToZero beta = true →
      composeLoss false beta lossMse lossNll lossKl = lossNll + lossKl)
    ∧ (isCloseToZero beta = false →
      composeLoss false beta lossMse lossNll lossKl = lossNll + beta * lossKl) := by
  constructor <;> intro h <;> simp [composeLoss, scaleKL, h]

/-- C1 witness: both branches of the amended statement evaluated at
concrete inputs. -/
theorem claim_C1_witness :
    composeLoss false 0 9 2 5 = 2 + 5 ∧ composeLoss false 2 9 3 5 = 3 + 2 * 5 :=
  ⟨(claim_C1 0 9 2 5).1 (by norm_num [isCloseToZero]),
    (claim_C1 2 9 3 5).2 (by norm_num [isCloseToZero])⟩

/-- C2: on the valid, already-descending partition [3,2], for factor
`et = 1`, `generations` reads the posterior columns {2,3} (offset
`et*n = 2`) instead of factor 1's own block {3,4} (offset 3, the sum of
the preceding sizes), and writes its 1 at column `2+idx`, which for
`idx = 0` lands inside factor 0's block (columns below 3). -/
theorem claim_C2 :
    codeSlice [3, 2] colIdx 0 1 = [2, 3]
    ∧ specSlice [3, 2] colIdx 0 1 = [3, 4]
    ∧ codeSlice [3, 2] colIdx 0 1 ≠ specSlice [3, 2] colIdx 0 1
    ∧ codeOffset [3, 2] 1 = 2
    ∧ specOffset [3, 2] 1 = 3
    ∧ codeOneHotPos [3, 2] 1 0 = 2
    ∧ codeOneHotPos [3, 2] 1 0 < specOffset [3, 2] 1 := by
  refine ⟨by decide, by decide, by decide, by decide, by decide, by decide, by decide⟩

/-- C9: any partition that the startup validation accepts and whose first
(largest) element is 1 makes the prior construction fail with
ZeroDivisionError from `0.1/(K0-1)`, before the prior-vs-partition
size-mismatch check of line 387 is reached (the error is the division
error, not the mismatch ValueError). -/
theorem claim_C9 (ets : List ℤ) (hacc : ets.all (fun k => decide (1 ≤ k)) = true)
    (hh : ets.head? = some 1) :
    buildPrior ets = .error "ZeroDivisionError: float division by zero" := by
  cases ets with
  | nil => simp at hh
  | cons k0 rest =>
    simp only [List.head?_cons, Option.some.injEq] at hh
    subst hh
    simp [buildPrior, buildPriorEt]

/-- C9 witness: the partition [1,1] passes the startup validation yet the
prior construction raises the division error. -/
theorem claim_C9_witness :
    buildPrior [1, 1] = .error "ZeroDivisionError: float division by zero" :=
  claim_C9 [1, 1] (by decide) (by decide)

/-- C10: a post pass over a loader that yields zero batches returns
normally: the sample count is 0, the accumulator is the zero tensor, and
every entry of the returned `aggr_posterior/n_samples` is NaN (0/0). -/
theorem claim_C10 :
    (∀ i j, postResult (θ := Unit) false 1 () [] i j = FQ.nan)
    ∧ (runPass (θ := Unit) Mode.post false 1 () []).nSamples = 0
    ∧ (∀ i j, (runPass (θ := Unit) Mode.post false 1 () []).aggr i j = 0) := by
  refine ⟨fun i j => ?_, rfl, fun i j => rfl⟩
  simp [postResult, runPass, tzero, fdivQ]

theorem runFold_params_eval (mode : Mode) (mseLoss : Bool) (beta : ℚ)
    (hm : mode ≠ Mode.train) :
    ∀ (bs : List (Batch θ)) (st : RunState θ),
      (bs.foldl (runBatch mode mseLoss beta) st).params = st.params := by
  intro bs
  induction bs with
  | nil => intro st; rfl
  | cons b bs ih =>
    intro st
    rw [List.foldl_cons, ih]
    simp [runBatch, hm]

theorem runFold_params_train (mseLoss : Bool) (beta : ℚ) :
    ∀ (bs : List (Batch θ)) (st : RunState θ),
      (bs.foldl (runBatch Mode.train mseLoss beta) st).params
        = bs.foldl (fun p b => b.optStep p) st.params := by
  intro bs
  induction bs with
  | nil => intro st; rfl
  | cons b bs ih =>
    intro st
    rw [List.foldl_cons, List.foldl_cons, ih]
    simp [runBatch]

theorem runFold_history (mode : Mode) (mseLoss : Bool) (beta : ℚ) :
    ∀ (bs : List (Batch θ)) (st : RunState θ),
      (bs.foldl (runBatch mode mseLoss beta) st).history
        = appendH st.history (emitted mode mseLoss beta st.params bs) := by
  intro bs
  induction bs with
  | nil =>
    intro st
    simp [emitted, appendH, emptyHistory]
  | cons b bs ih =>
    intro st
    rw [List.foldl_cons, ih]
    simp [runBatch, emitted, appendH]

theorem emitted_length (mode : Mode) (mseLoss : Bool) (beta : ℚ) :
    ∀ (bs : List (Batch θ)) (p : θ),
      (emitted mode mseLoss beta p bs).mse.length = bs.length
      ∧ (emitted mode mseLoss beta p bs).nll.length = bs.length
      ∧ (emitted mode mseLoss beta p bs).kl.length = bs.length
      ∧ (emitted mode mseLoss beta p bs).loss.length = bs.length
      ∧ (emitted mode mseLoss beta p bs).KLb_train.length = bs.length
      ∧ (emitted mode mseLoss beta p bs).KLb_blocks.length = bs.length := by
  intro bs
  induction bs with
  | nil => intro p; simp [emitted, emptyHistory]
  | cons b bs ih =>
    intro p
    simp only [emitted, List.length_cons]
    have h := ih (if mode = Mode.train then b.optStep p else p)
    exact ⟨by simp [h.1], by simp [h.2.1], by simp [h.2.2.1],
      by simp [h.2.2.2.1], by simp [h.2.2.2.2.1], by simp [h.2.2.2.2.2]⟩

/-- C5: any pass appends exactly one value per batch to each of the six
tracked metric keys, in the order the loader yields the batches (the
history equals the in-order per-batch scalar stream), so each metric
sequence ends with length `B`. -/
theorem claim_C5 (mode : Mode) (mseLoss : Bool) (beta : ℚ) (init : θ)
    (batches : List (Batch θ)) :
    (runPass mode mseLoss beta init batches).history
        = emitted mode mseLoss beta init batches
    ∧ (runPass mode mseLoss beta init batches).history.mse.length = batches.length
    ∧ (runPass mode mseLoss beta init batches).history.nll.length = batches.length
    ∧ (runPass mode mseLoss beta init batches).history.kl.length = batches.length
    ∧ (runPass mode mseLoss beta init batches).history.loss.length = batches.length
    ∧ (runPass mode mseLoss beta init batches).history.KLb_train.length = batches.length
    ∧ (runPass mode mseLoss beta init batches).history.KLb_blocks.length
        = batches.length := by
  have hh : (runPass mode mseLoss beta init batches).history
      = emitted mode mseLoss beta init batches := by
    have h := runFold_history mode mseLoss beta batches
      ⟨init, emptyHistory, tzero, 0⟩
    simpa [runPass, appendH, emptyHistory] using h
  have hl := emitted_length mode mseLoss beta batches init
  rw [hh]
  exact ⟨rfl, hl.1, hl.2.1, hl.2.2.1, hl.2.2.2.1, hl.2.2.2.2.1, hl.2.2.2.2.2⟩

/-- C6: outside train mode a pass leaves the model parameters untouched
(no optimizer step runs), and in train mode the final parameters are
exactly the fold of the per-batch optimizer steps, which is the only way
parameters change. -/
theorem claim_C6 (mode : Mode) (mseLoss : Bool) (beta : ℚ) (init : θ)
    (batches : List (Batch θ)) :
    (mode ≠ Mode.train → (runPass mode mseLoss beta init batches).params = init)
    ∧ (runPass Mode.train mseLoss beta init batches).params
        = batches.foldl (fun p b => b.optStep p) init := by
  constructor
  · intro hm
    exact runFold_params_eval mode mseLoss beta hm batches
      ⟨init, emptyHistory, tzero, 0⟩
  · exact runFold_params_train mseLoss beta batches ⟨init, emptyHistory, tzero, 0⟩

/-- C6 witness: a validation pass over one batch whose optimizer step would
add 5 leaves the parameters at their initial value 0. -/
theorem claim_C6_witness :
    (runPass Mode.val false 1 (0 : ℤ) [batchStep]).params = 0 :=
  (claim_C6 Mode.val false 1 0 [batchStep]).1 (by decide)

theorem runFold_post (mseLoss : Bool) (beta : ℚ) :
    ∀ (bs : List (Batch θ)) (st : RunState θ),
      ((bs.foldl (runBatch Mode.post mseLoss beta) st).params = st.params)
      ∧ (∀ i j, (bs.foldl (runBatch Mode.post mseLoss beta) st).aggr i j
          = st.aggr i j + (bs.map (fun b => sumBatch (b.edges st.params) i j)).sum)
      ∧ (bs.foldl (runBatch Mode.post mseLoss beta) st).nSamples
          = st.nSamples + (bs.map (fun b => (b.edges st.params).length)).sum := by
  intro bs
  induction bs with
  | nil =>
    intro st
    exact ⟨rfl, fun i j => by simp, by simp⟩
  | cons b bs ih =>
    intro st
    rw [List.foldl_cons]
    obtain ⟨hp, ha, hn⟩ := ih (runBatch Mode.post mseLoss beta st b)
    have hparams : (runBatch Mode.post mseLoss beta st b).params = st.params := by
      simp [runBatch]
    refine ⟨by rw [hp, hparams], fun i j => ?_, ?_⟩
    · rw [ha i j, hparams]
      simp [runBatch, add_assoc]
    · rw [hn, hparams]
      simp [runBatch, add_assoc]

theorem sliceSum_sum (ets : List ℕ) (f i : ℕ) :
    ∀ (ts : List Tensor),
      sliceSum ets f (fun a b => (ts.map (fun t => t a b)).sum) i
        = (ts.map (fun t => sliceSum ets f t i)).sum := by
  intro ts
  induction ts with
  | nil => simp [sliceSum]
  | cons t ts ih =>
    simp only [List.map_cons, List.sum_cons]
    rw [← ih]
    simp [sliceSum, Finset.sum_add_distrib]

theorem sliceSum_sumBatch (ets : List ℕ) (f i : ℕ) (l : List Tensor) :
    sliceSum ets f (sumBatch l) i = (l.map (fun s => sliceSum ets f s i)).sum := by
  have h := sliceSum_sum ets f i l
  simpa [sumBatch] using h

theorem sum_map_one {α : Type} (g : α → ℚ) :
    ∀ (l : List α), (∀ x ∈ l, g x = 1) → (l.map g).sum = l.length := by
  intro l
  induction l with
  | nil => simp
  | cons x l ih =>
    intro h
    simp only [List.map_cons, List.sum_cons, List.length_cons]
    rw [h x (by simp), ih (fun y hy => h y (by simp [hy]))]
    push_cast
    ring

/-- C3: a post pass over a loader yielding `S > 0` samples in total returns
the zero-initialized accumulator plus the sum over all batches of the
per-batch edge tensors summed over the batch axis, divided elementwise by
`S`; and whenever every per-sample edge tensor has a factor slice summing
to 1, the corresponding slice of the returned posterior sums to 1 for
that pair. -/
theorem claim_C3 (mseLoss : Bool) (beta : ℚ) (init : θ)
    (batches : List (Batch θ)) (ets : List ℕ) (f i : ℕ)
    (hS : 0 < totalSamples init batches)
    (hnorm : ∀ b ∈ batches, ∀ s ∈ b.edges init, sliceSum ets f s i = 1) :
    (∀ a j, postResult mseLoss beta init batches a j
        = FQ.val ((0 + (batches.map (fun b => sumBatch (b.edges init) a j)).sum)
            / (totalSamples init batches : ℚ)))
    ∧ sliceSum ets f (postResultQ mseLoss beta init batches) i = 1 := by
  obtain ⟨hp, ha, hn⟩ := runFold_post (θ := θ) mseLoss beta batches
    ⟨init, emptyHistory, tzero, 0⟩
  have hnn : (runPass Mode.post mseLoss beta init batches).nSamples
      = totalSamples init batches := by
    simpa [runPass, totalSamples, tzero] using hn
  have haa : ∀ a j, (runPass Mode.post mseLoss beta init batches).aggr a j
      = (batches.map (fun b => sumBatch (b.edges init) a j)).sum := by
    intro a j
    simpa [runPass, tzero] using ha a j
  have hSne : ((totalSamples init batches : ℚ)) ≠ 0 :=
    Nat.cast_ne_zero.mpr (Nat.pos_iff_ne_zero.mp hS)
  constructor
  · intro a j
    simp only [postResult]
    rw [haa a j, hnn]
    simp [fdivQ, hSne]
  · have hq : ∀ a j, postResultQ mseLoss beta init batches a j
        = (batches.map (fun b => sumBatch (b.edges init) a j)).sum
            / (totalSamples init batches : ℚ) := by
      intro a j
      simp only [postResultQ]
      rw [haa a j, hnn]
    have hswap := sliceSum_sum ets f i (batches.map (fun b => sumBatch (b.edges init)))
    have hq' : sliceSum ets f (postResultQ mseLoss beta init batches) i
        = (batches.map (fun b => sliceSum ets f (sumBatch (b.edges init)) i)).sum
            / (totalSamples init batches : ℚ) := by
      simp only [sliceSum, hq]
      rw [← Finset.sum_div]
      congr 1
      simp only [sliceSum, List.map_map, Function.comp] at hswap
      convert hswap using 2
    have hb : ∀ b ∈ batches,
        sliceSum ets f (sumBatch (b.edges init)) i = ((b.edges init).length : ℚ) := by
      intro b hbmem
      rw [sliceSum_sumBatch]
      exact sum_map_one _ (b.edges init) (fun s hs => hnorm b hbmem s hs)
    have hsum : (batches.map (fun b => sliceSum ets f (sumBatch (b.edges init)) i)).sum
        = (totalSamples init batches : ℚ) := by
      rw [List.map_congr_left hb]
      simp [totalSamples, Nat.cast_list_sum, List.map_map, Function.comp_def]
    rw [hq', hsum, div_self hSne]

/-- C3 witness: two one-sample batches over a single two-category factor
give a posterior whose factor slice sums to 1 for pair 0. -/
theorem claim_C3_witness :
    sliceSum [2] 0 (postResultQ false 1 () [batchA, batchB]) 0 = 1 := by
  refine (claim_C3 false 1 () [batchA, batchB] [2] 0 0 (by decide) ?_).2
  intro b hb s hs
  rcases List.mem_cons.mp hb with rfl | hb2
  · have hsa : s = sampleA := by simpa [batchA] using hs
    subst hsa
    simp [sliceSum, specOffset, sampleA, Finset.sum_range_succ]
  · rcases List.mem_cons.mp hb2 with rfl | hb3
    · have hsb : s = sampleB := by simpa [batchB] using hs
      subst hsb
      simp [sliceSum, specOffset, sampleB, Finset.sum_range_succ]
    · simp at hb3

theorem earlyStopAux_some (patience : ℕ) :
    ∀ (l : List Bool) (c e0 e : ℕ),
      earlyStopAux patience c e0 l = some e ↔
        ∃ k, k < l.length ∧ e = e0 + k
          ∧ patience < stallFrom c (l.take (k + 1))
          ∧ ∀ m < k, stallFrom c (l.take (m + 1)) ≤ patience := by
  intro l
  induction l with
  | nil =>
    intro c e0 e
    constructor
    · intro h
      exact absurd h (by simp [earlyStopAux])
    · rintro ⟨k, hk, -⟩
      exact absurd hk (by simp)
  | cons b rest ih =>
    intro c e0 e
    have hTake : ∀ m : ℕ, stallFrom c ((b :: rest).take (m + 1))
        = stallFrom (if b then 0 else c + 1) (rest.take m) := by
      intro m
      rw [List.take_succ_cons]
      rfl
    simp only [earlyStopAux]
    by_cases hlt : patience < (if b then 0 else c + 1)
    · rw [if_pos hlt]
      constructor
      · intro h
        have he : e0 = e := Option.some.inj h
        refine ⟨0, by simp, by omega, ?_, ?_⟩
        · rw [hTake 0]
          simpa [stallFrom] using hlt
        · intro m hm
          exact absurd hm (Nat.not_lt_zero m)
      · rintro ⟨k, hk, he, hgt, hall⟩
        cases k with
        | zero => simp [he]
        | succ k' =>
          exfalso
          have h0 := hall 0 (Nat.succ_pos k')
          rw [hTake 0] at h0
          simp [stallFrom] at h0
          exact absurd hlt (not_lt.mpr h0)
    · rw [if_neg hlt]
      rw [ih (if b then 0 else c + 1) (e0 + 1) e]
      constructor
      · rintro ⟨k, hk, he, hgt, hall⟩
        refine ⟨k + 1, by simpa using Nat.succ_lt_succ hk, by omega, ?_, ?_⟩
        · rw [hTake (k + 1)]
          exact hgt
        · intro m hm
          cases m with
          | zero =>
            rw [hTake 0]
            simpa [stallFrom] using not_lt.mp hlt
          | succ m' =>
            rw [hTake (m' + 1)]
            exact hall m' (by omega)
      · rintro ⟨k, hk, he, hgt, hall⟩
        cases k with
        | zero =>
          exfalso
          rw [hTake 0] at hgt
          simp [stallFrom] at hgt
          exact hlt hgt
        | succ k' =>
          refine ⟨k', by simp only [List.length_cons] at hk; omega, by omega, ?_, ?_⟩
          · rw [← hTake (k' + 1)]
            exact hgt
          · intro m hm
            have hmk := hall (m + 1) (by omega)
            rw [hTake (m + 1)] at hmk
            exact hmk

/-- C4: the epoch loop halts early with epoch `e` exactly when `e` is the
first epoch (1-based, within the stream) whose updated stall counter
strictly exceeds the patience: the counter after every earlier epoch is
at most the patience and the counter after epoch `e` exceeds it. -/
theorem claim_C4 (patience : ℕ) (signals : List Bool) (e : ℕ) :
    earlyStopEpoch patience signals = some e ↔
      (1 ≤ e ∧ e ≤ signals.length
        ∧ patience < stallAfter (signals.take e)
        ∧ ∀ e' < e, 1 ≤ e' → stallAfter (signals.take e') ≤ patience) := by
  rw [earlyStopEpoch, earlyStopAux_some]
  constructor
  · rintro ⟨k, hk, he, hgt, hall⟩
    subst he
    refine ⟨by omega, by omega, ?_, ?_⟩
    · have h1 : 1 + k = k + 1 := by omega
      rw [h1]
      exact hgt
    · intro e' he' h1
      have h2 : e' = (e' - 1) + 1 := by omega
      rw [h2]
      exact hall (e' - 1) (by omega)
  · rintro ⟨h1, h2, h3, h4⟩
    refine ⟨e - 1, by omega, by omega, ?_, ?_⟩
    · have h5 : e - 1 + 1 = e := by omega
      rw [h5]
      exact h3
    · intro m hm
      exact h4 (m + 1) (by omega) (by omega)

/-- C4 witness: with patience 2 and an improvement at epoch 1 followed by
three non-improving epochs, the loop halts exactly at epoch 4, where the
stall counter first reaches 3 > 2. -/
theorem claim_C4_witness :
    earlyStopEpoch 2 [true, false, false, false] = some 4 :=
  (claim_C4 2 [true, false, false, false] 4).mpr
    ⟨by decide, by decide, by decide, by decide⟩

theorem mapInt_none :
    ∀ (raw : List (Option ℤ)), none ∈ raw →
      mapInt raw = .error "invalid literal for int() with base 10" := by
  intro raw
  induction raw with
  | nil => intro h; simp at h
  | cons x rest ih =>
    intro h
    cases x with
    | none => rfl
    | some k =>
      have hr : none ∈ rest := by
        rcases List.mem_cons.mp h with h1 | h2
        · exact absurd h1 (by simp)
        · exact h2
      simp [mapInt, ih hr, Except.map]

/-- C7: a partition list containing a token that does not convert to an
integer, or an entry below 1, makes startup fail with a ValueError before
any configuration (hence any encoder/decoder construction or pass) is
produced; with all entries positive, startup succeeds and sets the total
edge-type count to the sum of the entries. -/
theorem claim_C7 (raw : List (Option ℤ)) :
    (none ∈ raw → startup raw = .error "invalid literal for int() with base 10")
    ∧ ∀ ints, mapInt raw = .ok ints →
        ((∃ k ∈ ints, k ≤ 0) →
          startup raw = .error "Could not compute the edge-types-list")
        ∧ ((∀ k ∈ ints, 1 ≤ k) →
          ∃ cfg, startup raw = .ok cfg ∧ cfg.edgeTypes = ints.sum) := by
  constructor
  · intro h
    simp [startup, mapInt_none raw h]
  · intro ints hm
    constructor
    · rintro ⟨k, hkmem, hk0⟩
      have hkl : k ∈ List.insertionSort (· ≥ ·) ints :=
        ((List.perm_insertionSort (· ≥ ·) ints).mem_iff).mpr hkmem
      have hall : (List.insertionSort (· ≥ ·) ints).all
          (fun k => decide (1 ≤ k)) = false :=
        List.all_eq_false.mpr ⟨k, hkl, by simp; omega⟩
      simp [startup, hm, validatePartition, hall]
    · intro hpos
      have hall : (List.insertionSort (· ≥ ·) ints).all
          (fun k => decide (1 ≤ k)) = true := by
        rw [List.all_eq_true]
        intro x hx
        have hxm : x ∈ ints := ((List.perm_insertionSort (· ≥ ·) ints).mem_iff).mp hx
        simpa using hpos x hxm
      refine ⟨⟨List.insertionSort (· ≥ ·) ints, (List.insertionSort (· ≥ ·) ints).sum⟩,
        ?_, ?_⟩
      · simp [startup, hm, validatePartition, hall]
      · exact (List.perm_insertionSort (· ≥ ·) ints).sum_eq

/-- C7 witness: the partition [2,-1] is rejected with the ValueError, while
[2,3] is accepted with a total edge-type count of 5. -/
theorem claim_C7_witness :
    startup [some 2, some (-1)] = .error "Could not compute the edge-types-list"
    ∧ ∃ cfg, startup [some 2, some 3] = .ok cfg ∧ cfg.edgeTypes = 5 := by
  constructor
  · exact ((claim_C7 [some 2, some (-1)]).2 [2, -1] rfl).1 ⟨-1, by simp, by omega⟩
  · obtain ⟨cfg, h1, h2⟩ := ((claim_C7 [some 2, some 3]).2 [2, 3] rfl).2 (by decide)
    exact ⟨cfg, h1, by rw [h2]; decide⟩

theorem validatePartition_ok (ints l : List ℤ) (s : ℤ)
    (h : validatePartition ints = .ok (l, s)) :
    l = List.insertionSort (· ≥ ·) ints ∧ s = l.sum := by
  simp only [validatePartition] at h
  split at h
  · simp only [Except.ok.injEq, Prod.mk.injEq] at h
    exact ⟨h.1.symm, by rw [← h.2, h.1]⟩
  · exact absurd h (by simp)

/-- C8: whenever startup accepts a partition, the partition it records is
sorted into descending order, is a permutation of the parsed input list
(same entries, hence the same sum), and the recorded total edge-type
count equals its sum; downstream operations receive exactly this list. -/
theorem claim_C8 (raw : List (Option ℤ)) (cfg : Startup)
    (h : startup raw = .ok cfg) :
    cfg.edgeTypesList.Sorted (· ≥ ·)
    ∧ (∃ ints, mapInt raw = .ok ints ∧ cfg.edgeTypesList.Perm ints
        ∧ cfg.edgeTypesList.sum = ints.sum)
    ∧ cfg.edgeTypes = cfg.edgeTypesList.sum := by
  cases hm : mapInt raw with
  | error e =>
    simp only [startup, hm] at h
    exact absurd h (by simp)
  | ok ints =>
    simp only [startup, hm] at h
    revert h
    cases hv : validatePartition ints with
    | error e =>
      intro h
      simp at h
    | ok p =>
      obtain ⟨l, s⟩ := p
      intro h
      simp only [Except.ok.injEq] at h
      obtain ⟨hl, hs⟩ := validatePartition_ok ints l s hv
      subst h
      subst hl
      refine ⟨List.sorted_insertionSort (· ≥ ·) ints, ⟨ints, rfl, ?_, ?_⟩, ?_⟩
      · exact List.perm_insertionSort (· ≥ ·) ints
      · exact (List.perm_insertionSort (· ≥ ·) ints).sum_eq
      · exact hs

/-- C8 witness: the input [2,3,2] is recorded as [3,2,2], descending, a
permutation of the input with the same sum 7. -/
theorem claim_C8_witness :
    ([3, 2, 2] : List ℤ).Sorted (· ≥ ·)
    ∧ (∃ ints, mapInt [some 2, some 3, some 2] = .ok ints
        ∧ ([3, 2, 2] : List ℤ).Perm ints ∧ ([3, 2, 2] : List ℤ).sum = ints.sum)
    ∧ (7 : ℤ) = ([3, 2, 2] : List ℤ).sum :=
  claim_C8 [some 2, some 3, some 2] ⟨[3, 2, 2], 7⟩ rfl

end FNRI
